import Mathlib

/-!
Verification development for the `match_same_arms` analysis in
`clippy_lints/src/matches/match_same_arms.rs`.

The Rust source is shallowly embedded: `rustc` interner symbols, `HirId`s,
`DefId`s and types are modelled as `Nat`; `u128` literal values are `Nat`
(the code only compares them, it never does wrapping arithmetic); the
name/type resolution context is a pair of functions `Nat → Nat`.
Host-side helpers that live outside this file's source
(`SpanlessEq`, `search_same`, `path_to_local`, `each_binding_or_first`)
are modelled from the specification and marked as such in doc comments.
-/

set_option maxHeartbeats 1600000

/-- rustc_hir::RangeEnd: whether the upper bound of a range pattern is
inclusive or exclusive. -/
inductive RangeEnd where
  | Included
  | Excluded
deriving DecidableEq, Repr

/-- PatRange from match_same_arms.rs: `start`/`end` are `u128` values
(modelled as `Nat`; only comparisons are performed) with a `RangeEnd`. -/
structure PatRange where
  start : Nat
  end_ : Nat
  bounds : RangeEnd
deriving DecidableEq, Repr

/-- Translation of `PatRange::contains`. -/
def PatRange.contains (r : PatRange) (x : Nat) : Bool :=
  decide (x ≥ r.start) &&
    match r.bounds with
    | .Included => decide (x ≤ r.end_)
    | .Excluded => decide (x < r.end_)

/-- Translation of `PatRange::is_empty`. -/
def PatRange.is_empty (r : PatRange) : Bool :=
  match r.bounds with
  | .Included => false
  | .Excluded => decide (r.start = r.end_)

/-- Translation of `PatRange::overlaps`. -/
def PatRange.overlaps (r other : PatRange) : Bool :=
  !(r.is_empty || other.is_empty) &&
    (match r.bounds with
     | .Included => decide (r.end_ ≥ other.start)
     | .Excluded => decide (r.end_ > other.start)) &&
    (match other.bounds with
     | .Included => decide (r.start ≤ other.end_)
     | .Excluded => decide (r.start < other.end_))

/-- ResolvedPat from match_same_arms.rs. `Symbol` (field names, string
literals) and `DefId` are modelled as `Nat`; byte-string literals as
`List Nat`. -/
inductive ResolvedPat where
  | Wild
  | Struct (id : Option Nat) (fields : List (Nat × ResolvedPat))
  | Sequence (id : Option Nat) (pats : List ResolvedPat) (wild_idx : Option Nat)
  | Or (pats : List ResolvedPat)
  | Path (id : Option Nat)
  | LitStr (s : Nat)
  | LitBytes (bs : List Nat)
  | LitInt (v : Nat)
  | LitBool (b : Bool)
  | Range (r : PatRange)
deriving Repr

mutual
/-- Translation of `ResolvedPat::can_also_match`.  The `Sequence` arm embeds
`slice::split_at(idx)` as `take idx`/`drop idx`; Rust's `split_at` panics
when `idx` exceeds the slice length, an out-of-domain case this total
embedding silently truncates — `can_also_match_split_panics` below tracks
exactly that precondition. -/
def can_also_match : ResolvedPat → ResolvedPat → Bool
  | .Wild, _ => true
  | _, .Wild => true
  | .Or pats, other => pats.attach.any (fun p => can_also_match p.1 other)
  | other, .Or pats => pats.attach.any (fun p => can_also_match p.1 other)
  | .Struct lpath lfields, .Struct rpath rfields =>
    if lpath ≠ rpath then false
    else fields_can_match lfields rfields
  | .Sequence lpath lpats lwild, .Sequence rpath rpats rwild =>
    if lpath ≠ rpath then false
    else
      let lidx := (lwild.or rwild).getD lpats.length
      let ridx := (rwild.or lwild).getD rpats.length
      (((lpats.take lidx).zip (rpats.take ridx)).attach.all
        (fun p => can_also_match p.1.1 p.1.2)) &&
      ((((lpats.drop lidx).reverse).zip ((rpats.drop ridx).reverse)).attach.all
        (fun p => can_also_match p.1.1 p.1.2))
  | .Path x, .Path y => decide (x = y)
  | .LitStr x, .LitStr y => decide (x = y)
  | .LitBytes x, .LitBytes y => decide (x = y)
  | .LitInt x, .LitInt y => decide (x = y)
  | .LitBool x, .LitBool y => decide (x = y)
  | .Range x, .Range y => x.overlaps y
  | .Range r, .LitInt x => r.contains x
  | .LitInt x, .Range r => r.contains x
  | _, _ => true
termination_by p q => sizeOf p + sizeOf q
decreasing_by
  all_goals simp_wf
  · have := List.sizeOf_lt_of_mem p.2; omega
  · have := List.sizeOf_lt_of_mem p.2; omega
  · omega
  · rcases p with ⟨⟨a, b⟩, hmem⟩
    have h := List.of_mem_zip hmem
    have s1 := List.sizeOf_lt_of_mem (List.take_subset lidx lpats h.1)
    have s2 := List.sizeOf_lt_of_mem (List.take_subset ridx rpats h.2)
    simp at s1 s2 ⊢
    omega
  · rcases p with ⟨⟨a, b⟩, hmem⟩
    have h := List.of_mem_zip hmem
    have s1 := List.sizeOf_lt_of_mem (List.drop_subset lidx lpats (List.mem_reverse.mp h.1))
    have s2 := List.sizeOf_lt_of_mem (List.drop_subset ridx rpats (List.mem_reverse.mp h.2))
    simp at s1 s2 ⊢
    omega

/-- Translation of the merge-join loop in the `Struct` arm of
`ResolvedPat::can_also_match`: fields are advanced by name order; running
off either field list returns `true` (the remaining fields of the other
side are unconstrained). -/
def fields_can_match : List (Nat × ResolvedPat) → List (Nat × ResolvedPat) → Bool
  | _, [] => true
  | [], _ :: _ => true
  | (ln, lp) :: lfs, (rn, rp) :: rfs =>
    if ln < rn then fields_can_match lfs ((rn, rp) :: rfs)
    else if ln > rn then fields_can_match ((ln, lp) :: lfs) rfs
    else can_also_match lp rp && fields_can_match lfs rfs
termination_by l r => sizeOf l + sizeOf r
decreasing_by
  all_goals simp_wf
  all_goals omega
end

/-- Well-formedness of a canonical pattern: every `Or` node has a nonempty
alternative list.  Patterns arising from rustc HIR always satisfy this,
since HIR or-patterns have at least two alternatives. -/
def ResolvedPat.wf : ResolvedPat → Bool
  | .Struct _ fields => fields.attach.all (fun f => f.1.2.wf)
  | .Sequence _ pats _ => pats.attach.all (fun p => p.1.wf)
  | .Or pats => !pats.isEmpty && pats.attach.all (fun p => p.1.wf)
  | _ => true
termination_by p => sizeOf p
decreasing_by
  all_goals simp_wf
  · rcases f with ⟨⟨a, b⟩, hm⟩
    have := List.sizeOf_lt_of_mem hm
    simp at this ⊢
    omega
  · have := List.sizeOf_lt_of_mem p.2; omega
  · have := List.sizeOf_lt_of_mem p.2; omega

/-- ast::LitKind, restricted to the payloads `from_pat` inspects. -/
inductive LitKind where
  | Str (s : Nat)
  | ByteStr (bs : List Nat)
  | Byte (v : Nat)
  | Char (v : Nat)
  | Int (v : Nat)
  | Bool (b : Bool)
  | Float
  | Err
deriving DecidableEq, Repr

/-- An expression appearing as a literal pattern or range endpoint:
either `ExprKind::Lit` with some literal, or any other expression kind
(which `from_pat` treats uniformly via its catch-all fallbacks). -/
inductive LitExpr where
  | lit (l : LitKind)
  | other
deriving DecidableEq, Repr

/-- rustc_hir::PatKind as consumed by this lint.  `HirId`s of bindings,
`Symbol`s (binding and field names) and resolved `DefId`s are `Nat`; the
resolution context (`cx.qpath_res(..).opt_def_id()`) is embedded as the
`Option Nat` stored in the path-bearing forms.  `Slice(front, rest, back)`
mirrors `PatKind::Slice(pats, wild, pats2)` with `rest` recording whether
the `..` sub-pattern is present. -/
inductive Pat where
  | Wild
  | BindingNone (id : Nat)
  | BindingSome (id : Nat) (p : Pat)
  | Box (p : Pat)
  | Ref (p : Pat)
  | Struct (res : Option Nat) (fields : List (Nat × Pat))
  | TupleStruct (res : Option Nat) (pats : List Pat) (wild_idx : Option Nat)
  | Or (pats : List Pat)
  | Path (res : Option Nat)
  | Tuple (pats : List Pat) (wild_idx : Option Nat)
  | Lit (e : LitExpr)
  | Range (start : Option LitExpr) (end_ : Option LitExpr) (bounds : RangeEnd)
  | Slice (front : List Pat) (rest : Bool) (back : List Pat)
deriving Repr

/-- Start-endpoint extraction in `from_pat`'s Range arm: a missing start
is the implicit minimum `0`; an int/char/byte literal yields its value;
anything else hits the `return Self::Wild` fallback, encoded as `none`. -/
def rangeStartVal : Option LitExpr → Option Nat
  | none => some 0
  | some (.lit (.Int v)) => some v
  | some (.lit (.Char v)) => some v
  | some (.lit (.Byte v)) => some v
  | some _ => none

/-- Value of `u128::MAX`. -/
def U128_MAX : Nat := 2 ^ 128 - 1

/-- End-endpoint extraction in `from_pat`'s Range arm: a missing end is
the implicit maximum `u128::MAX` with the bound forced to `Included`; an
int/char/byte literal keeps the source bound; anything else hits the
`return Self::Wild` fallback, encoded as `none`. -/
def rangeEndVal : Option LitExpr → RangeEnd → Option (Nat × RangeEnd)
  | none, _ => some (U128_MAX, .Included)
  | some (.lit (.Int v)), b => some (v, b)
  | some (.lit (.Char v)), b => some (v, b)
  | some (.lit (.Byte v)), b => some (v, b)
  | some _, _ => none

/-- Translation of `ResolvedPat::from_pat`. -/
def from_pat : Pat → ResolvedPat
  | .Wild => .Wild
  | .BindingNone _ => .Wild
  | .BindingSome _ p => from_pat p
  | .Box p => from_pat p
  | .Ref p => from_pat p
  | .Struct res fields =>
    .Struct res ((fields.attach.map (fun f => (f.1.1, from_pat f.1.2))).mergeSort
      (fun a b => decide (a.1 ≤ b.1)))
  | .TupleStruct res pats wild_idx =>
    .Sequence res (pats.attach.map (fun p => from_pat p.1)) wild_idx
  | .Or pats => .Or (pats.attach.map (fun p => from_pat p.1))
  | .Path res => .Path res
  | .Tuple pats wild_idx =>
    .Sequence none (pats.attach.map (fun p => from_pat p.1)) wild_idx
  | .Lit e =>
    match e with
    | .lit (.Str s) => .LitStr s
    | .lit (.ByteStr bs) => .LitBytes bs
    | .lit (.Byte v) => .LitInt v
    | .lit (.Char v) => .LitInt v
    | .lit (.Int v) => .LitInt v
    | .lit (.Bool b) => .LitBool b
    | .lit .Float => .Wild
    | .lit .Err => .Wild
    | .other => .Wild
  | .Range s e bounds =>
    match rangeStartVal s with
    | none => .Wild
    | some sv =>
      match rangeEndVal e bounds with
      | none => .Wild
      | some (ev, b2) => .Range ⟨sv, ev, b2⟩
  | .Slice front rest back =>
    .Sequence none ((front ++ back).attach.map (fun p => from_pat p.1))
      (if rest then some front.length else none)
termination_by p => sizeOf p
decreasing_by
  all_goals simp_wf
  · rcases f with ⟨⟨a, b⟩, hm⟩
    have := List.sizeOf_lt_of_mem hm
    simp at this ⊢
    omega
  · have := List.sizeOf_lt_of_mem p.2; omega
  · have := List.sizeOf_lt_of_mem p.2; omega
  · have := List.sizeOf_lt_of_mem p.2; omega
  · rcases p with ⟨a, hm⟩
    rcases List.mem_append.mp hm with h | h <;>
      have := List.sizeOf_lt_of_mem h <;> simp <;> omega

/-- Decides whether a range-endpoint expression is one of the accepted
int/char/byte literal forms (used only to state claim C8). -/
def is_range_lit_endpoint : LitExpr → Bool
  | .lit (.Int _) => true
  | .lit (.Char _) => true
  | .lit (.Byte _) => true
  | _ => false

/-- The `slice::split_at` panic precondition in the `Sequence` arm of
`can_also_match` (the only place the Rust core can fail at runtime): when
the constructor identities agree, `lpats.split_at(lidx)` requires
`lidx ≤ lpats.len()` and `rpats.split_at(ridx)` requires
`ridx ≤ rpats.len()`, where each side's index is taken from the other
side's rest-gap when its own is absent.  Returns true exactly when the
top-level comparison violates one of the preconditions, i.e. when the
Rust code panics before recursing. -/
def can_also_match_split_panics : ResolvedPat → ResolvedPat → Bool
  | .Sequence lpath lpats lwild, .Sequence rpath rpats rwild =>
    decide (lpath = rpath) &&
      (decide (lpats.length < (lwild.or rwild).getD lpats.length) ||
       decide (rpats.length < (rwild.or lwild).getD rpats.length))
  | _, _ => false

/-- Translation of the per-arm forward search in `check` (lines 23-33):
the first index `j > i` whose pattern the pattern at `i` can also match,
or the arm count when none exists. -/
def forward_block (pats : List ResolvedPat) (i : Nat) : Nat :=
  match (pats.drop (i + 1)).findIdx?
      (fun other => can_also_match (pats.getD i .Wild) other) with
  | some j => i + 1 + j
  | none => pats.length

/-- The `forwards_blocking_idxs` vector from `check`. -/
def forwards_blocking_idxs (pats : List ResolvedPat) : List Nat :=
  (List.range pats.length).map (forward_block pats)

/-- Translation of the per-arm backward search in `check` (lines 36-49):
scan `j = i-1, …, 0`, skipping while `forward_block[j] > i`, and return
the first `j` with `forward_block[j] == i` or whose pattern the pattern
at `i` can also match; `0` when none is found. -/
def backward_block (pats : List ResolvedPat) (fwd : List Nat) (i : Nat) : Nat :=
  match ((List.range i).reverse.dropWhile (fun j => decide (fwd.getD j 0 > i))).find?
      (fun j => decide (fwd.getD j 0 = i) ||
        can_also_match (pats.getD i .Wild) (pats.getD j .Wild)) with
  | some j => j
  | none => 0

/-- The `backwards_blocking_idxs` vector from `check`. -/
def backwards_blocking_idxs (pats : List ResolvedPat) : List Nat :=
  (List.range pats.length).map (backward_block pats (forwards_blocking_idxs pats))

/-- Modelled from the spec (section 4.5): an arm body expression tree.
`localRef id` is an expression for which the host's `path_to_local`
returns the local binding `id`; `lit` stands for any other leaf
expression; `app` for any interior structural node. -/
inductive Expr where
  | localRef (id : Nat)
  | lit (v : Nat)
  | app (f a : Expr)
deriving DecidableEq, Repr

/-- Modelled from the spec (sections 6 and 9): the host resolution context,
mapping a binding `HirId` to its declared name (`cx.tcx.hir().name`) and to
the type of an expression referencing it (`cx.typeck_results().expr_ty`). -/
structure Ctx where
  name : Nat → Nat
  ty : Nat → Nat

/-- An arm as consumed by `check`: a pattern, a guard-presence flag
(`arm.guard.is_some()`) and a body expression. -/
structure Arm where
  pat : Pat
  guard : Bool
  body : Expr

/-- Out-of-range indexing default (the Rust code indexes `arms[i]` only at
in-range indices; all claims below carry in-range hypotheses). -/
def default_arm : Arm := ⟨.Wild, false, .lit 0⟩

/-- Translation of `pat_contains_local` (lines 328-335): whether any
binding node in the pattern binds the given `HirId`; `Pat::walk_short`
visits every sub-pattern, including all or-pattern alternatives. -/
def pat_contains_local : Pat → Nat → Bool
  | .Wild, _ => false
  | .BindingNone bid, id => decide (bid = id)
  | .BindingSome bid p, id => decide (bid = id) || pat_contains_local p id
  | .Box p, id => pat_contains_local p id
  | .Ref p, id => pat_contains_local p id
  | .Struct _ fields, id => fields.attach.any (fun f => pat_contains_local f.1.2 id)
  | .TupleStruct _ pats _, id => pats.attach.any (fun p => pat_contains_local p.1 id)
  | .Or pats, id => pats.attach.any (fun p => pat_contains_local p.1 id)
  | .Path _, _ => false
  | .Tuple pats _, id => pats.attach.any (fun p => pat_contains_local p.1 id)
  | .Lit _, _ => false
  | .Range _ _ _, _ => false
  | .Slice front _ back, id =>
    (front ++ back).attach.any (fun p => pat_contains_local p.1 id)
termination_by p _ => sizeOf p
decreasing_by
  all_goals simp_wf
  all_goals first
    | omega
    | (have hsz := List.sizeOf_lt_of_mem p.2; omega)
    | (rcases f with ⟨⟨a, b⟩, hm⟩
       have := List.sizeOf_lt_of_mem hm
       simp at this ⊢
       omega)
    | (rcases p with ⟨a, hm⟩
       rcases List.mem_append.mp hm with h | h <;>
         (have hsz := List.sizeOf_lt_of_mem h; simp; omega))

/-- Modelled from the spec and from `rustc_hir::Pat::each_binding_or_first`
(not part of this file's source): the bindings visited by the
closure-validity check, in visit order, descending into only the first
alternative of each or-pattern. -/
def bindings_or_first : Pat → List Nat
  | .Wild => []
  | .BindingNone bid => [bid]
  | .BindingSome bid p => bid :: bindings_or_first p
  | .Box p => bindings_or_first p
  | .Ref p => bindings_or_first p
  | .Struct _ fields => (fields.attach.map (fun f => bindings_or_first f.1.2)).flatten
  | .TupleStruct _ pats _ => (pats.attach.map (fun p => bindings_or_first p.1)).flatten
  | .Or [] => []
  | .Or (p :: _) => bindings_or_first p
  | .Path _ => []
  | .Tuple pats _ => (pats.attach.map (fun p => bindings_or_first p.1)).flatten
  | .Lit _ => []
  | .Range _ _ _ => []
  | .Slice front _ back =>
    ((front ++ back).attach.map (fun p => bindings_or_first p.1)).flatten
termination_by p => sizeOf p
decreasing_by
  all_goals simp_wf
  all_goals first
    | omega
    | (have hsz := List.sizeOf_lt_of_mem p.2; omega)
    | (rcases f with ⟨⟨a, b⟩, hm⟩
       have := List.sizeOf_lt_of_mem hm
       simp at this ⊢
       omega)
    | (rcases p with ⟨a, hm⟩
       rcases List.mem_append.mp hm with h | h <;>
         (have hsz := List.sizeOf_lt_of_mem h; simp; omega))

/-- The removal loop of `bindings_eq` (lines 338-342): visiting the
bindings in order, each removes itself from the remaining id set (a
failed removal latches the result to false).  Returns the accumulated
result and the leftover ids. -/
def bindings_eq_go : List Nat → List Nat → Bool × List Nat
  | [], ids => (true, ids)
  | b :: bs, ids =>
    let r := bindings_eq_go bs (ids.erase b)
    (ids.contains b && r.1, r.2)

/-- Translation of `bindings_eq`: all bindings of the pattern (first
or-alternatives only) are in `ids` and vice versa. -/
def bindings_eq (pat : Pat) (ids : List Nat) : Bool :=
  let r := bindings_eq_go (bindings_or_first pat) ids
  r.1 && r.2.isEmpty

/-- Translation of the `eq_fallback` closure (lines 56-77); the `HirIdMap`
is an association list, `Entry::Occupied`/`Vacant` is `lookup`. -/
def eq_fallback (ctx : Ctx) (lpat rpat : Pat) (m : List (Nat × Nat))
    (aId bId : Nat) : Bool × List (Nat × Nat) :=
  match m.lookup aId with
  | some v => (decide (v = bId), m)
  | none =>
    if decide (ctx.name aId = ctx.name bId) && decide (ctx.ty aId = ctx.ty bId)
        && pat_contains_local lpat aId && pat_contains_local rpat bId
    then (true, (aId, bId) :: m)
    else (false, m)

/-- Modelled from the spec (section 4.5): `SpanlessEq` structural expression
equality with the `expr_fallback` override — whenever both sides are
references to local bindings, the correspondence map decides (and is
extended); structurally different shapes are unequal.  The map is threaded
left to right. -/
def eq_expr (ctx : Ctx) (lpat rpat : Pat) :
    Expr → Expr → List (Nat × Nat) → Bool × List (Nat × Nat)
  | .localRef a, .localRef b, m => eq_fallback ctx lpat rpat m a b
  | .lit x, .lit y, m => (decide (x = y), m)
  | .app f a, .app g b, m =>
    let r := eq_expr ctx lpat rpat f g m
    if r.1 then eq_expr ctx lpat rpat a b r.2 else (false, r.2)
  | _, _, m => (false, m)

/-- The canonical patterns of all arms (line 20 of `check`). -/
def resolved_pats (arms : List Arm) : List ResolvedPat :=
  arms.map (fun a => from_pat a.pat)

/-- Translation of the `eq` closure in `check` (lines 51-89): the equality
predicate handed to the grouper, capturing the two blocker vectors. -/
def check_eq (ctx : Ctx) (arms : List Arm) (lindex rindex : Nat) : Bool :=
  let lhs := arms.getD lindex default_arm
  let rhs := arms.getD rindex default_arm
  let min_index := min lindex rindex
  let max_index := max lindex rindex
  let pats := resolved_pats arms
  let fwd := forwards_blocking_idxs pats
  let bwd := backwards_blocking_idxs pats
  let res := eq_expr ctx lhs.pat rhs.pat lhs.body rhs.body []
  (!(decide (bwd.getD max_index 0 > min_index) &&
     decide (fwd.getD min_index 0 < max_index)))
    && !lhs.guard && !rhs.guard && res.1
    && bindings_eq lhs.pat ((res.2.map Prod.fst).dedup)
    && bindings_eq rhs.pat ((res.2.map Prod.snd).dedup)

/-- Modelled from the spec (section 6): the grouper collaborator
(`search_same`) is sound — it only returns index pairs satisfying the
supplied equality predicate.  A pair of arms `i < j` is reported exactly
when (hash-equal and) `check_eq` holds. -/
def reported (ctx : Ctx) (arms : List Arm) (i j : Nat) : Prop :=
  i < j ∧ j < arms.length ∧ check_eq ctx arms i j = true

/-- The final value of the `local_map` binding-correspondence map built
while comparing the bodies of the two arms (the `HirIdMap` of the `eq`
closure after `eq_expr` finishes). -/
def correspondence_map (ctx : Ctx) (arms : List Arm) (lindex rindex : Nat) :
    List (Nat × Nat) :=
  (eq_expr ctx (arms.getD lindex default_arm).pat
    (arms.getD rindex default_arm).pat
    (arms.getD lindex default_arm).body
    (arms.getD rindex default_arm).body []).2

/-! ## General helper lemmas -/

theorem attach_any_eq {α : Type} (l : List α) (f : α → Bool) :
    (l.attach.any fun p => f p.1) = l.any f := by
  rw [Bool.eq_iff_iff, List.any_eq_true, List.any_eq_true]
  constructor
  · rintro ⟨p, _, h⟩; exact ⟨p.1, p.2, h⟩
  · rintro ⟨x, hx, h⟩; exact ⟨⟨x, hx⟩, List.mem_attach _ _, h⟩

theorem attach_all_eq {α : Type} (l : List α) (f : α → Bool) :
    (l.attach.all fun p => f p.1) = l.all f := by
  rw [Bool.eq_iff_iff, List.all_eq_true, List.all_eq_true]
  constructor
  · rintro h x hx; exact h ⟨x, hx⟩ (List.mem_attach _ _)
  · rintro h p _; exact h p.1 p.2

theorem any_mem_congr {α : Type} {l : List α} {f g : α → Bool}
    (h : ∀ a ∈ l, f a = g a) : l.any f = l.any g := by
  induction l with
  | nil => rfl
  | cons a as ih =>
    simp only [List.any_cons]
    rw [h a (by simp), ih (fun x hx => h x (by simp [hx]))]

theorem all_mem_congr {α : Type} {l : List α} {f g : α → Bool}
    (h : ∀ a ∈ l, f a = g a) : l.all f = l.all g := by
  induction l with
  | nil => rfl
  | cons a as ih =>
    simp only [List.all_cons]
    rw [h a (by simp), ih (fun x hx => h x (by simp [hx]))]

theorem any_any_comm {α β : Type} (l : List α) (r : List β) (f : α → β → Bool) :
    l.any (fun a => r.any (fun b => f a b)) =
      r.any (fun b => l.any (fun a => f a b)) := by
  rw [Bool.eq_iff_iff]
  simp only [List.any_eq_true]
  constructor
  · rintro ⟨a, ha, b, hb, h⟩; exact ⟨b, hb, a, ha, h⟩
  · rintro ⟨b, hb, a, ha, h⟩; exact ⟨a, ha, b, hb, h⟩

/-! ## Well-formedness extraction -/

theorem wf_or_ne_nil {l : List ResolvedPat} (h : (ResolvedPat.Or l).wf = true) :
    l ≠ [] := by
  simp only [ResolvedPat.wf, Bool.and_eq_true] at h
  intro he
  subst he
  simp at h

theorem wf_or_elem {l : List ResolvedPat} (h : (ResolvedPat.Or l).wf = true) :
    ∀ a ∈ l, a.wf = true := by
  simp only [ResolvedPat.wf, Bool.and_eq_true, List.all_eq_true] at h
  intro a ha
  exact h.2 ⟨a, ha⟩ (List.mem_attach _ _)

theorem wf_struct_elem {i : Option Nat} {fs : List (Nat × ResolvedPat)}
    (h : (ResolvedPat.Struct i fs).wf = true) :
    ∀ f ∈ fs, (Prod.snd f).wf = true := by
  simp only [ResolvedPat.wf, List.all_eq_true] at h
  intro f hf
  exact h ⟨f, hf⟩ (List.mem_attach _ _)

theorem wf_seq_elem {i : Option Nat} {ps : List ResolvedPat} {w : Option Nat}
    (h : (ResolvedPat.Sequence i ps w).wf = true) : ∀ p ∈ ps, p.wf = true := by
  simp only [ResolvedPat.wf, List.all_eq_true] at h
  intro p hp
  exact h ⟨p, hp⟩ (List.mem_attach _ _)

/-! ## Unfolding lemmas for can_also_match -/

theorem cam_wild_left (q : ResolvedPat) : can_also_match .Wild q = true := by
  simp [can_also_match]

theorem cam_wild_right (p : ResolvedPat) : can_also_match p .Wild = true := by
  cases p <;> simp [can_also_match]

theorem cam_or_left_any (l : List ResolvedPat) (hne : l ≠ []) (a : ResolvedPat) :
    can_also_match (.Or l) a = l.any (fun b => can_also_match b a) := by
  cases a with
  | Wild =>
    rw [cam_wild_right]
    rw [any_mem_congr (fun b _ => cam_wild_right b)]
    cases l with
    | nil => exact absurd rfl hne
    | cons x xs => simp
  | _ =>
    simp only [can_also_match]
    exact attach_any_eq l (fun b => can_also_match b _)

theorem cam_or_right_any (l : List ResolvedPat) (hne : l ≠ []) (a : ResolvedPat)
    (hnor : ∀ r, a ≠ .Or r) :
    can_also_match a (.Or l) = l.any (fun b => can_also_match b a) := by
  cases a with
  | Wild =>
    rw [cam_wild_left]
    rw [any_mem_congr (fun b _ => cam_wild_right b)]
    cases l with
    | nil => exact absurd rfl hne
    | cons x xs => simp
  | Or r => exact absurd rfl (hnor r)
  | _ =>
    simp only [can_also_match]
    exact attach_any_eq l (fun b => can_also_match b _)

theorem overlaps_comm (a b : PatRange) : a.overlaps b = b.overlaps a := by
  rcases a with ⟨s1, e1, b1⟩
  rcases b with ⟨s2, e2, b2⟩
  cases b1 <;> cases b2 <;>
  · rw [Bool.eq_iff_iff]
    simp only [PatRange.overlaps, PatRange.is_empty, Bool.and_eq_true,
      Bool.not_eq_true', Bool.or_eq_false_iff, decide_eq_true_eq,
      decide_eq_false_iff_not, true_and, and_true]
    omega

/-! ## Symmetry of the overlap oracle -/

theorem fields_can_match_comm_aux :
    ∀ n (lf rf : List (Nat × ResolvedPat)), lf.length + rf.length ≤ n →
    (∀ a ∈ lf, ∀ b ∈ rf, can_also_match a.2 b.2 = can_also_match b.2 a.2) →
    fields_can_match lf rf = fields_can_match rf lf := by
  intro n
  induction n with
  | zero =>
    intro lf rf hlen _
    have hl : lf = [] := List.eq_nil_of_length_eq_zero (by omega)
    have hr : rf = [] := List.eq_nil_of_length_eq_zero (by omega)
    subst hl; subst hr; rfl
  | succ n ih =>
    intro lf rf hlen hcam
    rcases lf with _ | ⟨⟨ln, lp⟩, lfs⟩
    · rcases rf with _ | ⟨⟨rn, rp⟩, rfs⟩ <;> simp only [fields_can_match]
    · rcases rf with _ | ⟨⟨rn, rp⟩, rfs⟩
      · simp only [fields_can_match]
      · simp only [fields_can_match]
        simp only [List.length_cons] at hlen
        rcases Nat.lt_trichotomy ln rn with h | h | h
        · simp only [gt_iff_lt, if_pos h, if_neg (Nat.lt_asymm h)]
          exact ih lfs ((rn, rp) :: rfs) (by simp; omega)
            (fun a ha b hb => hcam a (by simp [ha]) b hb)
        · subst h
          simp only [gt_iff_lt, lt_self_iff_false, if_false]
          rw [hcam (ln, lp) (by simp) (ln, rp) (by simp)]
          rw [ih lfs rfs (by omega)
            (fun a ha b hb => hcam a (by simp [ha]) b (by simp [hb]))]
        · simp only [gt_iff_lt, if_pos h, if_neg (Nat.lt_asymm h)]
          exact ih ((ln, lp) :: lfs) rfs (by simp; omega)
            (fun a ha b hb => hcam a ha b (by simp [hb]))

theorem zip_all_cam_comm :
    ∀ (xs ys : List ResolvedPat),
    (∀ a ∈ xs, ∀ b ∈ ys, can_also_match a b = can_also_match b a) →
    ((xs.zip ys).all fun x => can_also_match x.1 x.2) =
      ((ys.zip xs).all fun x : ResolvedPat × ResolvedPat => can_also_match x.1 x.2) := by
  intro xs
  induction xs with
  | nil => intro ys _; simp
  | cons a as ih =>
    intro ys h
    cases ys with
    | nil => simp
    | cons b bs =>
      simp only [List.zip_cons_cons, List.all_cons]
      rw [h a (by simp) b (by simp),
        ih bs (fun x hx y hy => h x (by simp [hx]) y (by simp [hy]))]

theorem can_also_match_comm_aux :
    ∀ n (p q : ResolvedPat), sizeOf p + sizeOf q ≤ n →
    p.wf = true → q.wf = true →
    can_also_match p q = can_also_match q p := by
  intro n
  induction n using Nat.strong_induction_on with
  | _ n ih =>
  intro p q hn hp hq
  cases p
  case Wild => rw [cam_wild_left, cam_wild_right]
  case Or l =>
    have hlne : l ≠ [] := wf_or_ne_nil hp
    have hlw := wf_or_elem hp
    cases q
    case Wild => rw [cam_wild_right, cam_wild_left]
    case Or r =>
      have hrne : r ≠ [] := wf_or_ne_nil hq
      have hrw := wf_or_elem hq
      rw [cam_or_left_any l hlne, cam_or_left_any r hrne]
      have e1 : ∀ a ∈ l, can_also_match a (.Or r) =
          r.any (fun b => can_also_match a b) := by
        intro a ha
        rw [ih (sizeOf a + sizeOf (ResolvedPat.Or r))
          (by have := List.sizeOf_lt_of_mem ha; simp at hn ⊢; omega)
          a (.Or r) le_rfl (hlw a ha) hq]
        rw [cam_or_left_any r hrne a]
        exact any_mem_congr (fun b hb => ih (sizeOf b + sizeOf a)
          (by have h1 := List.sizeOf_lt_of_mem ha
              have h2 := List.sizeOf_lt_of_mem hb
              simp at hn ⊢; omega)
          b a le_rfl (hrw b hb) (hlw a ha))
      rw [any_mem_congr e1]
      have e2 : ∀ b ∈ r, can_also_match b (.Or l) =
          l.any (fun a => can_also_match a b) := by
        intro b hb
        rw [ih (sizeOf b + sizeOf (ResolvedPat.Or l))
          (by have := List.sizeOf_lt_of_mem hb; simp at hn ⊢; omega)
          b (.Or l) le_rfl (hrw b hb) hp]
        rw [cam_or_left_any l hlne b]
      rw [any_mem_congr e2]
      exact any_any_comm l r (fun a b => can_also_match a b)
    all_goals
      rw [cam_or_left_any l hlne, cam_or_right_any l hlne _
        (fun rr hh => ResolvedPat.noConfusion hh)]
  case Struct lid lf =>
    cases q
    case Wild => rw [cam_wild_right, cam_wild_left]
    case Or r =>
      have hrne : r ≠ [] := wf_or_ne_nil hq
      rw [cam_or_right_any r hrne _ (fun rr hh => ResolvedPat.noConfusion hh),
        cam_or_left_any r hrne]
    case Struct rid rf =>
      simp only [can_also_match]
      by_cases hid : lid = rid
      · subst hid
        simp only [ne_eq, not_true_eq_false, if_false]
        exact fields_can_match_comm_aux (lf.length + rf.length) lf rf le_rfl
          (fun a ha b hb => by
            rcases a with ⟨an, ap⟩
            rcases b with ⟨bn, bp⟩
            exact ih (sizeOf ap + sizeOf bp)
              (by have h1 := List.sizeOf_lt_of_mem ha
                  have h2 := List.sizeOf_lt_of_mem hb
                  simp at h1 h2 hn ⊢; omega)
              ap bp le_rfl (wf_struct_elem hp _ ha) (wf_struct_elem hq _ hb))
      · simp only [ne_eq, hid, not_false_eq_true, if_true, Ne.symm hid]
    all_goals simp [can_also_match]
  case Sequence lid lpats lw =>
    cases q
    case Wild => rw [cam_wild_right, cam_wild_left]
    case Or r =>
      have hrne : r ≠ [] := wf_or_ne_nil hq
      rw [cam_or_right_any r hrne _ (fun rr hh => ResolvedPat.noConfusion hh),
        cam_or_left_any r hrne]
    case Sequence rid rpats rw2 =>
      simp only [can_also_match]
      by_cases hid : lid = rid
      · subst hid
        simp only [ne_eq, not_true_eq_false, if_false]
        have hfront : ∀ a ∈ lpats.take ((lw.or rw2).getD lpats.length),
            ∀ b ∈ rpats.take ((rw2.or lw).getD rpats.length),
            can_also_match a b = can_also_match b a := by
          intro a ha b hb
          have ha2 := List.take_subset _ _ ha
          have hb2 := List.take_subset _ _ hb
          exact ih (sizeOf a + sizeOf b)
            (by have h1 := List.sizeOf_lt_of_mem ha2
                have h2 := List.sizeOf_lt_of_mem hb2
                simp at hn ⊢; omega)
            a b le_rfl (wf_seq_elem hp _ ha2) (wf_seq_elem hq _ hb2)
        have hback : ∀ a ∈ (lpats.drop ((lw.or rw2).getD lpats.length)).reverse,
            ∀ b ∈ (rpats.drop ((rw2.or lw).getD rpats.length)).reverse,
            can_also_match a b = can_also_match b a := by
          intro a ha b hb
          have ha2 := List.drop_subset _ _ (List.mem_reverse.mp ha)
          have hb2 := List.drop_subset _ _ (List.mem_reverse.mp hb)
          exact ih (sizeOf a + sizeOf b)
            (by have h1 := List.sizeOf_lt_of_mem ha2
                have h2 := List.sizeOf_lt_of_mem hb2
                simp at hn ⊢; omega)
            a b le_rfl (wf_seq_elem hp _ ha2) (wf_seq_elem hq _ hb2)
        have r1 : (((lpats.take ((lw.or rw2).getD lpats.length)).zip
              (rpats.take ((rw2.or lw).getD rpats.length))).attach.all
              fun p => can_also_match p.1.1 p.1.2) =
            (((lpats.take ((lw.or rw2).getD lpats.length)).zip
              (rpats.take ((rw2.or lw).getD rpats.length))).all
              fun x : ResolvedPat × ResolvedPat => can_also_match x.1 x.2) :=
          attach_all_eq _ (fun x : ResolvedPat × ResolvedPat => can_also_match x.1 x.2)
        have r2 : ((((lpats.drop ((lw.or rw2).getD lpats.length)).reverse).zip
              ((rpats.drop ((rw2.or lw).getD rpats.length)).reverse)).attach.all
              fun p => can_also_match p.1.1 p.1.2) =
            ((((lpats.drop ((lw.or rw2).getD lpats.length)).reverse).zip
              ((rpats.drop ((rw2.or lw).getD rpats.length)).reverse)).all
              fun x : ResolvedPat × ResolvedPat => can_also_match x.1 x.2) :=
          attach_all_eq _ (fun x : ResolvedPat × ResolvedPat => can_also_match x.1 x.2)
        have r3 : (((rpats.take ((rw2.or lw).getD rpats.length)).zip
              (lpats.take ((lw.or rw2).getD lpats.length))).attach.all
              fun p => can_also_match p.1.1 p.1.2) =
            (((rpats.take ((rw2.or lw).getD rpats.length)).zip
              (lpats.take ((lw.or rw2).getD lpats.length))).all
              fun x : ResolvedPat × ResolvedPat => can_also_match x.1 x.2) :=
          attach_all_eq _ (fun x : ResolvedPat × ResolvedPat => can_also_match x.1 x.2)
        have r4 : ((((rpats.drop ((rw2.or lw).getD rpats.length)).reverse).zip
              ((lpats.drop ((lw.or rw2).getD lpats.length)).reverse)).attach.all
              fun p => can_also_match p.1.1 p.1.2) =
            ((((rpats.drop ((rw2.or lw).getD rpats.length)).reverse).zip
              ((lpats.drop ((lw.or rw2).getD lpats.length)).reverse)).all
              fun x : ResolvedPat × ResolvedPat => can_also_match x.1 x.2) :=
          attach_all_eq _ (fun x : ResolvedPat × ResolvedPat => can_also_match x.1 x.2)
        rw [r1, r2, r3, r4, zip_all_cam_comm _ _ hfront, zip_all_cam_comm _ _ hback]
      · simp only [ne_eq, hid, not_false_eq_true, if_true, Ne.symm hid]
    all_goals simp [can_also_match]
  case Path x =>
    cases q
    case Wild => rw [cam_wild_right, cam_wild_left]
    case Or r =>
      have hrne : r ≠ [] := wf_or_ne_nil hq
      rw [cam_or_right_any r hrne _ (fun rr hh => ResolvedPat.noConfusion hh),
        cam_or_left_any r hrne]
    all_goals simp [can_also_match, eq_comm]
  case LitStr x =>
    cases q
    case Wild => rw [cam_wild_right, cam_wild_left]
    case Or r =>
      have hrne : r ≠ [] := wf_or_ne_nil hq
      rw [cam_or_right_any r hrne _ (fun rr hh => ResolvedPat.noConfusion hh),
        cam_or_left_any r hrne]
    all_goals simp [can_also_match, eq_comm]
  case LitBytes x =>
    cases q
    case Wild => rw [cam_wild_right, cam_wild_left]
    case Or r =>
      have hrne : r ≠ [] := wf_or_ne_nil hq
      rw [cam_or_right_any r hrne _ (fun rr hh => ResolvedPat.noConfusion hh),
        cam_or_left_any r hrne]
    all_goals simp [can_also_match, eq_comm]
  case LitInt x =>
    cases q
    case Wild => rw [cam_wild_right, cam_wild_left]
    case Or r =>
      have hrne : r ≠ [] := wf_or_ne_nil hq
      rw [cam_or_right_any r hrne _ (fun rr hh => ResolvedPat.noConfusion hh),
        cam_or_left_any r hrne]
    all_goals simp [can_also_match, eq_comm]
  case LitBool x =>
    cases q
    case Wild => rw [cam_wild_right, cam_wild_left]
    case Or r =>
      have hrne : r ≠ [] := wf_or_ne_nil hq
      rw [cam_or_right_any r hrne _ (fun rr hh => ResolvedPat.noConfusion hh),
        cam_or_left_any r hrne]
    all_goals simp [can_also_match, eq_comm]
  case Range r1 =>
    cases q
    case Wild => rw [cam_wild_right, cam_wild_left]
    case Or r =>
      have hrne : r ≠ [] := wf_or_ne_nil hq
      rw [cam_or_right_any r hrne _ (fun rr hh => ResolvedPat.noConfusion hh),
        cam_or_left_any r hrne]
    case Range r2 =>
      simp only [can_also_match]
      exact overlaps_comm r1 r2
    all_goals simp [can_also_match, eq_comm]

theorem can_also_match_comm (p q : ResolvedPat) (hp : p.wf = true) (hq : q.wf = true) :
    can_also_match p q = can_also_match q p :=
  can_also_match_comm_aux (sizeOf p + sizeOf q) p q le_rfl hp hq

/-! ## Claim theorems -/

/-- Claim C6: for all integers x and ranges r,
`contains(r, x) == overlaps(r, singleton-inclusive-range(x, x))`. -/
theorem range_containment_consistency (r : PatRange) (x : Nat) :
    r.contains x = r.overlaps ⟨x, x, .Included⟩ := by
  rcases r with ⟨s, e, b⟩
  cases b <;>
    simp only [PatRange.contains, PatRange.overlaps, PatRange.is_empty,
      Bool.or_false, Bool.not_false, Bool.true_and, Bool.false_or,
      Bool.not_eq_true'] <;>
  · rw [Bool.eq_iff_iff]
    simp only [Bool.and_eq_true, decide_eq_true_eq, Bool.not_eq_true',
      decide_eq_false_iff_not]
    omega

/-- Claim C7: for canonical `Path` patterns the overlap test is exactly
equality of the optional constructor identities: two absent identities are
considered overlapping, while an absent identity never overlaps a present
one. -/
theorem path_overlap_is_identity_equality :
    (∀ x y : Option Nat, can_also_match (.Path x) (.Path y) = decide (x = y)) ∧
    can_also_match (.Path none) (.Path none) = true ∧
    (∀ d : Nat, can_also_match (.Path none) (.Path (some d)) = false) ∧
    (∀ d : Nat, can_also_match (.Path (some d)) (.Path none) = false) := by
  refine ⟨fun x y => ?_, ?_, fun d => ?_, fun d => ?_⟩ <;>
    simp [can_also_match]

/-- Claim C8: canonicalizing a range pattern falls back to `Wild` whenever
a present endpoint is not an int/char/byte literal; a missing start is the
implicit minimum 0 and a missing end the implicit maximum `u128::MAX` with
inclusive bound. -/
theorem range_canonicalization_endpoints :
    (∀ ex e b, is_range_lit_endpoint ex = false →
      from_pat (.Range (some ex) e b) = .Wild) ∧
    (∀ s ex b, is_range_lit_endpoint ex = false →
      from_pat (.Range s (some ex) b) = .Wild) ∧
    (∀ e b, from_pat (.Range none e b) =
      from_pat (.Range (some (.lit (.Int 0))) e b)) ∧
    (∀ s b, from_pat (.Range s none b) =
      from_pat (.Range s (some (.lit (.Int U128_MAX))) .Included)) := by
  refine ⟨fun ex e b hx => ?_, fun s ex b hx => ?_, fun e b => ?_, fun s b => ?_⟩
  · cases ex with
    | lit l =>
      cases l <;> first
        | (simp [is_range_lit_endpoint] at hx; done)
        | simp [from_pat, rangeStartVal]
    | other => simp [from_pat, rangeStartVal]
  · cases ex with
    | lit l =>
      cases l <;> first
        | (simp [is_range_lit_endpoint] at hx; done)
        | (simp only [from_pat]
           rcases hsv : rangeStartVal s with _ | sv <;> simp [hsv, rangeEndVal])
    | other =>
      simp only [from_pat]
      rcases hsv : rangeStartVal s with _ | sv <;> simp [hsv, rangeEndVal]
  · simp only [from_pat, rangeStartVal]
  · simp only [from_pat]
    rcases hsv : rangeStartVal s with _ | sv <;> simp [hsv, rangeEndVal]

/-- Witness for claim C8's theorem at concrete endpoints. -/
theorem range_canonicalization_endpoints_witness :
    from_pat (.Range (some .other) (some (.lit (.Int 5))) .Included) = .Wild ∧
    from_pat (.Range (some (.lit (.Int 1))) (some .other) .Included) = .Wild ∧
    from_pat (.Range none (some (.lit (.Int 5))) .Excluded) =
      from_pat (.Range (some (.lit (.Int 0))) (some (.lit (.Int 5))) .Excluded) ∧
    from_pat (.Range (some (.lit (.Int 1))) none .Excluded) =
      from_pat (.Range (some (.lit (.Int 1))) (some (.lit (.Int U128_MAX))) .Included) :=
  ⟨range_canonicalization_endpoints.1 .other (some (.lit (.Int 5))) .Included rfl,
   range_canonicalization_endpoints.2.1 (some (.lit (.Int 1))) .other .Included rfl,
   range_canonicalization_endpoints.2.2.1 (some (.lit (.Int 5))) .Excluded,
   range_canonicalization_endpoints.2.2.2 (some (.lit (.Int 1))) .Excluded⟩

/-- Claim C2 (refuted, code bug): the boolean predicates are not total.
The slice patterns `[_, _]` and `[_, _, _, _, ..]` are both legal against
a slice scrutinee; canonicalization maps them to `Sequence` patterns
where only the right side has a rest-gap at index 4, and `can_also_match`
then calls `lpats.split_at(4)` on the 2-element left list, which panics. -/
theorem split_at_panic_on_mismatched_rest_gap :
    from_pat (.Slice [.Wild, .Wild] false []) =
      .Sequence none [.Wild, .Wild] none ∧
    from_pat (.Slice [.Wild, .Wild, .Wild, .Wild] true []) =
      .Sequence none [.Wild, .Wild, .Wild, .Wild] (some 4) ∧
    can_also_match_split_panics (.Sequence none [.Wild, .Wild] none)
      (.Sequence none [.Wild, .Wild, .Wild, .Wild] (some 4)) = true := by
  refine ⟨?_, ?_, by decide⟩ <;> simp [from_pat]

/-- Claim C4: `can_also_match` is symmetric on well-formed canonical
patterns (every pattern produced from HIR is well-formed, since HIR
or-patterns are nonempty). -/
theorem overlap_symmetry (p q : ResolvedPat)
    (hp : p.wf = true) (hq : q.wf = true) :
    can_also_match p q = can_also_match q p :=
  can_also_match_comm p q hp hq

/-- Witness for claim C4's theorem at concrete patterns. -/
theorem overlap_symmetry_witness :
    can_also_match (.Or [.LitInt 1, .Range ⟨1, 5, .Included⟩]) (.LitInt 3) =
      can_also_match (.LitInt 3) (.Or [.LitInt 1, .Range ⟨1, 5, .Included⟩]) :=
  overlap_symmetry _ _ (by simp [ResolvedPat.wf]) (by simp [ResolvedPat.wf])

/-! ## Blocker window analysis -/

theorem range_map_getD (f : Nat → Nat) (n i : Nat) (h : i < n) :
    ((List.range n).map f).getD i 0 = f i := by
  simp [List.getD_eq_getElem?_getD, List.getElem?_map, List.getElem?_range h]

theorem getD_mem {α : Type} (l : List α) (d : α) (i : Nat) (h : i < l.length) :
    l.getD i d ∈ l := by
  rw [List.getD_eq_getElem?_getD, List.getElem?_eq_getElem h]
  exact List.getElem_mem h

theorem getD_eq_getElem {α : Type} (l : List α) (d : α) (i : Nat)
    (h : i < l.length) : l.getD i d = l.get ⟨i, h⟩ := by
  rw [List.getD_eq_getElem?_getD, List.getElem?_eq_getElem h]
  rfl

theorem forward_block_ge (pats : List ResolvedPat) (i : Nat)
    (h : i < pats.length) : i ≤ forward_block pats i := by
  rcases hf : (pats.drop (i + 1)).findIdx?
      (fun other => can_also_match (pats.getD i .Wild) other) with _ | j <;>
    simp only [forward_block, hf] <;> omega

theorem backward_block_le (pats : List ResolvedPat) (fwd : List Nat) (i : Nat) :
    backward_block pats fwd i ≤ i := by
  rcases hf : ((List.range i).reverse.dropWhile
      (fun j => decide (fwd.getD j 0 > i))).find?
      (fun j => decide (fwd.getD j 0 = i) ||
        can_also_match (pats.getD i .Wild) (pats.getD j .Wild)) with _ | j
  · simp only [backward_block, hf]
    omega
  · have hmem := List.mem_of_find?_eq_some hf
    have h2 : j ∈ (List.range i).reverse :=
      (List.dropWhile_sublist _).subset hmem
    have h3 := List.mem_range.mp (List.mem_reverse.mp h2)
    simp only [backward_block, hf]
    omega

/-- Claim C5: for every in-range arm index,
`backward_block[i] <= i <= forward_block[i]`. -/
theorem window_monotonicity (pats : List ResolvedPat) (i : Nat)
    (h : i < pats.length) :
    (backwards_blocking_idxs pats).getD i 0 ≤ i ∧
    i ≤ (forwards_blocking_idxs pats).getD i 0 := by
  constructor
  · rw [backwards_blocking_idxs, range_map_getD _ _ _ h]
    exact backward_block_le pats (forwards_blocking_idxs pats) i
  · rw [forwards_blocking_idxs, range_map_getD _ _ _ h]
    exact forward_block_ge pats i h

/-- Witness for claim C5's theorem at a concrete arm list. -/
theorem window_monotonicity_witness :
    (0 < ([.Wild] : List ResolvedPat).length) ∧
    ((backwards_blocking_idxs [.Wild]).getD 0 0 ≤ 0 ∧
      0 ≤ (forwards_blocking_idxs [.Wild]).getD 0 0) :=
  ⟨by simp, window_monotonicity [.Wild] 0 (by simp)⟩

theorem findIdx?_le_of_pred {α : Type} (p : α → Bool) :
    ∀ (l : List α) (m : Nat) (hm : m < l.length),
    p (l.get ⟨m, hm⟩) = true → ∃ j, l.findIdx? p = some j ∧ j ≤ m := by
  intro l
  induction l with
  | nil => intro m hm; simp at hm
  | cons x xs ih =>
    intro m hm hp
    by_cases hx : p x = true
    · refine ⟨0, ?_, Nat.zero_le m⟩
      simp [List.findIdx?_cons, hx]
    · cases m with
      | zero => exact absurd hp hx
      | succ m2 =>
        have hm2 : m2 < xs.length := by simpa using hm
        obtain ⟨j, hj, hjle⟩ := ih m2 hm2 hp
        refine ⟨j + 1, ?_, by omega⟩
        simp [List.findIdx?_cons, hx, List.findIdx?_succ, hj]

theorem forward_block_le_of_overlap (pats : List ResolvedPat) (i k : Nat)
    (hik : i < k) (hk : k < pats.length)
    (hov : can_also_match (pats.getD i .Wild) (pats.getD k .Wild) = true) :
    forward_block pats i ≤ k := by
  have hlen : k - (i + 1) < (pats.drop (i + 1)).length := by
    rw [List.length_drop]; omega
  have hget : (pats.drop (i + 1)).get ⟨k - (i + 1), hlen⟩ = pats.getD k .Wild := by
    have h1 : (pats.drop (i + 1))[k - (i + 1)]? = pats[(i + 1) + (k - (i + 1))]? :=
      List.getElem?_drop pats (i + 1) (k - (i + 1))
    have h2 : (i + 1) + (k - (i + 1)) = k := by omega
    rw [h2] at h1
    rw [getD_eq_getElem pats .Wild k hk]
    have h3 := List.getElem?_eq_getElem hlen
    rw [h1, List.getElem?_eq_getElem hk] at h3
    exact Option.some.inj h3.symm
  obtain ⟨j, hj, hjle⟩ := findIdx?_le_of_pred
    (fun other => can_also_match (pats.getD i .Wild) other)
    (pats.drop (i + 1)) (k - (i + 1)) hlen (by rw [hget]; exact hov)
  simp only [forward_block, hj]
  omega

/-! ## Guard exclusion -/

/-- Claim C9: an arm pair in which either arm has a guard is never
reported, regardless of pattern overlap or body equality (the grouper
returns only pairs satisfying the equality predicate, per its contract). -/
theorem guard_exclusion (ctx : Ctx) (arms : List Arm) (i j : Nat)
    (h : reported ctx arms i j) :
    (arms.getD i default_arm).guard = false ∧
    (arms.getD j default_arm).guard = false := by
  obtain ⟨_, _, hacc⟩ := h
  simp only [check_eq, Bool.and_eq_true, Bool.not_eq_true'] at hacc
  obtain ⟨⟨⟨⟨⟨hwin, hgl⟩, hgr⟩, hres⟩, hbl⟩, hbr⟩ := hacc
  exact ⟨hgl, hgr⟩

/-! ## Backward scan analysis -/

theorem find?_gt_found_false {l : List Nat} {p : Nat → Bool} {a : Nat}
    (hp : l.Pairwise (fun x y => x > y)) (hf : l.find? p = some a) :
    ∀ k ∈ l, k > a → p k = false := by
  induction l with
  | nil => simp at hf
  | cons x xs ih =>
    intro k hk hka
    rcases List.pairwise_cons.mp hp with ⟨hx, hxs⟩
    by_cases hpx : p x = true
    · rw [List.find?_cons_of_pos _ hpx] at hf
      have hax : a = x := (Option.some.inj hf).symm
      subst hax
      rcases List.mem_cons.mp hk with rfl | hk2
      · omega
      · have := hx k hk2; omega
    · rw [List.find?_cons_of_neg _ hpx] at hf
      rcases List.mem_cons.mp hk with rfl | hk2
      · exact Bool.eq_false_iff.mpr hpx
      · exact ih hxs hf k hk2 hka

theorem backward_block_no_overlap (pats : List ResolvedPat) (i j k : Nat)
    (hik : i < k) (hkj : k < j) (hj : j < pats.length)
    (hb : backward_block pats (forwards_blocking_idxs pats) j ≤ i) :
    can_also_match (pats.getD k .Wild) (pats.getD j .Wild) = false ∨
    can_also_match (pats.getD j .Wild) (pats.getD k .Wild) = false := by
  have hkmem : k ∈ (List.range j).reverse := by
    rw [List.mem_reverse, List.mem_range]; omega
  have hksplit : k ∈ (List.range j).reverse.takeWhile
        (fun m => decide ((forwards_blocking_idxs pats).getD m 0 > j)) ++
      (List.range j).reverse.dropWhile
        (fun m => decide ((forwards_blocking_idxs pats).getD m 0 > j)) := by
    rw [List.takeWhile_append_dropWhile]; exact hkmem
  rcases List.mem_append.mp hksplit with hk1 | hk2
  · left
    have hPk := List.mem_takeWhile_imp hk1
    have hfk : forward_block pats k > j := by
      have h2 := of_decide_eq_true hPk
      rwa [forwards_blocking_idxs, range_map_getD _ _ _ (by omega)] at h2
    rcases hcase : can_also_match (pats.getD k .Wild) (pats.getD j .Wild) with _ | _
    · rfl
    · have := forward_block_le_of_overlap pats k j hkj hj hcase
      omega
  · right
    rcases hf : ((List.range j).reverse.dropWhile
        (fun m => decide ((forwards_blocking_idxs pats).getD m 0 > j))).find?
        (fun m => decide ((forwards_blocking_idxs pats).getD m 0 = j) ||
          can_also_match (pats.getD j .Wild) (pats.getD m .Wild)) with _ | j0
    · have hall := List.find?_eq_none.mp hf
      have h2 := hall k hk2
      simp only [Bool.or_eq_true, not_or, decide_eq_true_eq] at h2
      exact Bool.eq_false_iff.mpr h2.2
    · have hbj0 : backward_block pats (forwards_blocking_idxs pats) j = j0 := by
        simp only [backward_block, hf]
      have hji0 : j0 ≤ i := hbj0 ▸ hb
      have hrevpair : ((List.range j).reverse).Pairwise (fun x y => x > y) :=
        (List.pairwise_reverse).mpr (List.pairwise_lt_range j)
      have hpair := List.Pairwise.sublist
        (List.dropWhile_sublist
          (fun m => decide ((forwards_blocking_idxs pats).getD m 0 > j)))
        hrevpair
      have hpk := find?_gt_found_false hpair hf k hk2 (by omega)
      simp only [Bool.or_eq_false_iff, decide_eq_false_iff_not] at hpk
      exact hpk.2

/-- Claim C1, counterexample: for the match
`1..=5 => "a" | 3 => "b" | 10..=20 => "a"` the pair (0, 2) is reported
mergeable (its bodies are equal, no guards, and the window check passes
because `backward_block(2) = 0 ≤ 0`), yet the arm strictly between them
overlaps arm 0 (`can_also_match(pat[1], pat[0]) = true`) and
`forward_block(0) = 1 < 2`, refuting both the no-skip-over form and the
conjunctive window form of the claim. -/
theorem merge_safety_counterexample :
    reported ⟨fun _ => 0, fun _ => 0⟩
      [⟨.Range (some (.lit (.Int 1))) (some (.lit (.Int 5))) .Included, false, .lit 0⟩,
       ⟨.Lit (.lit (.Int 3)), false, .lit 1⟩,
       ⟨.Range (some (.lit (.Int 10))) (some (.lit (.Int 20))) .Included, false, .lit 0⟩]
      0 2 ∧
    can_also_match
      ((resolved_pats
        [⟨.Range (some (.lit (.Int 1))) (some (.lit (.Int 5))) .Included, false, .lit 0⟩,
         ⟨.Lit (.lit (.Int 3)), false, .lit 1⟩,
         ⟨.Range (some (.lit (.Int 10))) (some (.lit (.Int 20))) .Included, false, .lit 0⟩]).getD 1 .Wild)
      ((resolved_pats
        [⟨.Range (some (.lit (.Int 1))) (some (.lit (.Int 5))) .Included, false, .lit 0⟩,
         ⟨.Lit (.lit (.Int 3)), false, .lit 1⟩,
         ⟨.Range (some (.lit (.Int 10))) (some (.lit (.Int 20))) .Included, false, .lit 0⟩]).getD 0 .Wild)
      = true ∧
    (forwards_blocking_idxs (resolved_pats
        [⟨.Range (some (.lit (.Int 1))) (some (.lit (.Int 5))) .Included, false, .lit 0⟩,
         ⟨.Lit (.lit (.Int 3)), false, .lit 1⟩,
         ⟨.Range (some (.lit (.Int 10))) (some (.lit (.Int 20))) .Included, false, .lit 0⟩])).getD 0 0
      = 1 := by
  have hr3 : List.range 3 = [0, 1, 2] := rfl
  have hr2 : List.range 2 = [0, 1] := rfl
  have hr1 : List.range 1 = [0] := rfl
  have hr0 : List.range 0 = [] := rfl
  refine ⟨⟨by omega, by simp, ?_⟩, ?_, ?_⟩ <;>
    simp [check_eq, resolved_pats, from_pat, forwards_blocking_idxs, forward_block,
      backwards_blocking_idxs, backward_block, can_also_match, eq_expr,
      bindings_eq, bindings_eq_go, bindings_or_first, default_arm,
      rangeStartVal, rangeEndVal, PatRange.contains, PatRange.overlaps,
      PatRange.is_empty, U128_MAX, hr3, hr2, hr1, hr0]

/-- Claim C1, amended: if an arm pair (i, j), i < j, passes the equality
predicate (is reported mergeable), then EITHER every arm strictly between
them does not overlap arm i, OR every arm strictly between them does not
overlap arm j — equivalently the pair is accepted only if
`forward_block(i) >= j` OR `backward_block(j) <= i` (the code requires the
disjunction, not the conjunction of the original claim). -/
theorem merge_window_soundness (ctx : Ctx) (arms : List Arm) (i j : Nat)
    (hij : i < j) (hj : j < arms.length)
    (hwf : ∀ p ∈ resolved_pats arms, p.wf = true)
    (hacc : check_eq ctx arms i j = true) :
    (∀ k, i < k → k < j →
      can_also_match ((resolved_pats arms).getD k .Wild)
        ((resolved_pats arms).getD i .Wild) = false) ∨
    (∀ k, i < k → k < j →
      can_also_match ((resolved_pats arms).getD k .Wild)
        ((resolved_pats arms).getD j .Wild) = false) := by
  have hplen : (resolved_pats arms).length = arms.length := by
    simp [resolved_pats]
  have hjp : j < (resolved_pats arms).length := by omega
  simp only [check_eq, Bool.and_eq_true, Bool.not_eq_true'] at hacc
  obtain ⟨⟨⟨⟨⟨hwin, _⟩, _⟩, _⟩, _⟩, _⟩ := hacc
  rw [Nat.max_eq_right (Nat.le_of_lt hij), Nat.min_eq_left (Nat.le_of_lt hij)]
    at hwin
  rw [Bool.and_eq_false_iff] at hwin
  rcases hwin with hbwd | hfwd
  · right
    intro k hik hkj
    have hb : backward_block (resolved_pats arms)
        (forwards_blocking_idxs (resolved_pats arms)) j ≤ i := by
      have h2 := of_decide_eq_false hbwd
      rw [backwards_blocking_idxs, range_map_getD _ _ _ hjp] at h2
      omega
    rcases backward_block_no_overlap (resolved_pats arms) i j k hik hkj hjp hb
      with hc | hc
    · exact hc
    · have hcomm := can_also_match_comm
        ((resolved_pats arms).getD k .Wild) ((resolved_pats arms).getD j .Wild)
        (hwf _ (getD_mem _ _ _ (by omega))) (hwf _ (getD_mem _ _ _ hjp))
      rw [hcomm]
      exact hc
  · left
    intro k hik hkj
    have hfb : j ≤ forward_block (resolved_pats arms) i := by
      have h2 := of_decide_eq_false hfwd
      rw [forwards_blocking_idxs, range_map_getD _ _ _ (by omega)] at h2
      omega
    rcases hcase : can_also_match ((resolved_pats arms).getD k .Wild)
        ((resolved_pats arms).getD i .Wild) with _ | _
    · rfl
    · have hcomm := can_also_match_comm
        ((resolved_pats arms).getD k .Wild) ((resolved_pats arms).getD i .Wild)
        (hwf _ (getD_mem _ _ _ (by omega))) (hwf _ (getD_mem _ _ _ (by omega)))
      rw [hcomm] at hcase
      have := forward_block_le_of_overlap (resolved_pats arms) i k hik
        (by omega) hcase
      omega

/-- Witness for the amended claim C1 theorem at a concrete match. -/
theorem merge_window_soundness_witness :
    (∀ k, 0 < k → k < 1 →
      can_also_match ((resolved_pats
          [⟨.Lit (.lit (.Int 1)), false, .lit 0⟩,
           ⟨.Lit (.lit (.Int 1)), false, .lit 0⟩]).getD k .Wild)
        ((resolved_pats
          [⟨.Lit (.lit (.Int 1)), false, .lit 0⟩,
           ⟨.Lit (.lit (.Int 1)), false, .lit 0⟩]).getD 0 .Wild) = false) ∨
    (∀ k, 0 < k → k < 1 →
      can_also_match ((resolved_pats
          [⟨.Lit (.lit (.Int 1)), false, .lit 0⟩,
           ⟨.Lit (.lit (.Int 1)), false, .lit 0⟩]).getD k .Wild)
        ((resolved_pats
          [⟨.Lit (.lit (.Int 1)), false, .lit 0⟩,
           ⟨.Lit (.lit (.Int 1)), false, .lit 0⟩]).getD 1 .Wild) = false) := by
  have hr2 : List.range 2 = [0, 1] := rfl
  have hr1 : List.range 1 = [0] := rfl
  have hr0 : List.range 0 = [] := rfl
  exact merge_window_soundness ⟨fun _ => 0, fun _ => 0⟩
    [⟨.Lit (.lit (.Int 1)), false, .lit 0⟩, ⟨.Lit (.lit (.Int 1)), false, .lit 0⟩]
    0 1 (by omega) (by simp)
    (by
      intro p hp
      simp [resolved_pats, from_pat] at hp
      rcases hp with rfl | rfl <;> simp [ResolvedPat.wf])
    (by
      simp [check_eq, resolved_pats, from_pat, forwards_blocking_idxs,
        forward_block, backwards_blocking_idxs, backward_block, can_also_match,
        eq_expr, bindings_eq, bindings_eq_go, bindings_or_first, default_arm,
        hr2, hr1, hr0])

/-! ## Binding correspondence map invariants -/

theorem lookup_none_not_mem : ∀ (m : List (Nat × Nat)) (a : Nat),
    m.lookup a = none → ∀ p ∈ m, p.1 ≠ a := by
  intro m
  induction m with
  | nil => intro a _ p hp; simp at hp
  | cons x xs ih =>
    intro a h p hp hpa
    rcases x with ⟨k, v⟩
    by_cases hak : a = k
    · subst hak; simp [List.lookup] at h
    · have hbeq : (a == k) = false := beq_eq_false_iff_ne.mpr hak
      have h2 : xs.lookup a = none := by
        simpa [List.lookup, hbeq] using h
      rcases List.mem_cons.mp hp with rfl | hp2
      · exact hak hpa.symm
      · exact ih a h2 p hp2 hpa

theorem eq_fallback_inv (ctx : Ctx) (lpat rpat : Pat) (m : List (Nat × Nat))
    (a b : Nat)
    (h1 : ∀ p ∈ m, ctx.name p.1 = ctx.name p.2)
    (h2 : (m.map Prod.fst).Nodup) :
    (∀ p ∈ (eq_fallback ctx lpat rpat m a b).2, ctx.name p.1 = ctx.name p.2) ∧
    ((eq_fallback ctx lpat rpat m a b).2.map Prod.fst).Nodup := by
  rcases hl : m.lookup a with _ | v
  · by_cases hc : (decide (ctx.name a = ctx.name b) && decide (ctx.ty a = ctx.ty b)
        && pat_contains_local lpat a && pat_contains_local rpat b) = true
    · simp only [eq_fallback, hl, hc, if_true]
      constructor
      · intro p hp
        rcases List.mem_cons.mp hp with rfl | hp2
        · simp only [Bool.and_eq_true, decide_eq_true_eq] at hc
          exact hc.1.1.1
        · exact h1 p hp2
      · simp only [List.map_cons, List.nodup_cons]
        refine ⟨?_, h2⟩
        intro hmem
        obtain ⟨p, hp, hpa⟩ := List.mem_map.mp hmem
        exact lookup_none_not_mem m a hl p hp hpa
    · simp only [eq_fallback, hl, hc, if_false]
      exact ⟨h1, h2⟩
  · simp only [eq_fallback, hl]
    exact ⟨h1, h2⟩

theorem eq_expr_inv (ctx : Ctx) (lpat rpat : Pat) :
    ∀ (e1 e2 : Expr) (m : List (Nat × Nat)),
    (∀ p ∈ m, ctx.name p.1 = ctx.name p.2) → (m.map Prod.fst).Nodup →
    (∀ p ∈ (eq_expr ctx lpat rpat e1 e2 m).2, ctx.name p.1 = ctx.name p.2) ∧
    ((eq_expr ctx lpat rpat e1 e2 m).2.map Prod.fst).Nodup := by
  intro e1
  induction e1 with
  | localRef a =>
    intro e2 m h1 h2
    cases e2 with
    | localRef b => exact eq_fallback_inv ctx lpat rpat m a b h1 h2
    | lit v => exact ⟨h1, h2⟩
    | app f a2 => exact ⟨h1, h2⟩
  | lit x =>
    intro e2 m h1 h2
    cases e2 with
    | localRef b => exact ⟨h1, h2⟩
    | lit v => exact ⟨h1, h2⟩
    | app f a2 => exact ⟨h1, h2⟩
  | app f a ihf iha =>
    intro e2 m h1 h2
    cases e2 with
    | localRef b => exact ⟨h1, h2⟩
    | lit v => exact ⟨h1, h2⟩
    | app g b =>
      obtain ⟨hf1, hf2⟩ := ihf g m h1 h2
      rcases hrr : (eq_expr ctx lpat rpat f g m).1 with _ | _ <;>
        simp only [eq_expr, hrr, if_true, if_false, Bool.false_eq_true]
      · exact ⟨hf1, hf2⟩
      · exact iha b _ hf1 hf2

theorem bindings_eq_go_subset : ∀ (bs ids : List Nat),
    (bindings_eq_go bs ids).1 = true → (bindings_eq_go bs ids).2 = [] →
    ∀ x ∈ ids, x ∈ bs := by
  intro bs
  induction bs with
  | nil =>
    intro ids h1 h2 x hx
    simp only [bindings_eq_go] at h2
    subst h2
    simp at hx
  | cons b bs2 ih =>
    intro ids h1 h2 x hx
    simp only [bindings_eq_go, Bool.and_eq_true] at h1 h2
    by_cases hxb : x = b
    · simp [hxb]
    · have hx2 : x ∈ ids.erase b := (List.mem_erase_of_ne hxb).mpr hx
      have := ih (ids.erase b) h1.2 h2 x hx2
      simp [this]

theorem pairwise_name_inj {f : Nat → Nat} : ∀ {l : List Nat},
    l.Pairwise (fun a b => f a ≠ f b) →
    ∀ a ∈ l, ∀ b ∈ l, f a = f b → a = b := by
  intro l hl
  induction hl with
  | nil => intro a ha; simp at ha
  | cons hhead _ ih =>
    intro a ha b hb heq
    rcases List.mem_cons.mp ha with rfl | ha2 <;>
      rcases List.mem_cons.mp hb with rfl | hb2
    · rfl
    · exact absurd heq (hhead b hb2)
    · exact absurd heq.symm (hhead a ha2)
    · exact ih a ha2 b hb2 heq

/-- Claim C3: for an accepted pair, the binding correspondence map is a
partial injection — no left binding maps to two different right bindings
(it is a map, by construction), and no two left bindings map to the same
right binding.  The injectivity direction uses the Rust well-formedness
fact that distinct binders visible to `each_binding_or_first` in one
pattern have distinct names (rustc rejects a pattern binding one name
twice, error E0416), supplied as the `hnames` hypothesis. -/
theorem binding_correspondence_partial_injection (ctx : Ctx) (arms : List Arm)
    (lindex rindex : Nat)
    (hnames : (bindings_or_first (arms.getD lindex default_arm).pat).Pairwise
      (fun a b => ctx.name a ≠ ctx.name b))
    (hacc : check_eq ctx arms lindex rindex = true) :
    (∀ p ∈ correspondence_map ctx arms lindex rindex,
      ∀ q ∈ correspondence_map ctx arms lindex rindex,
        p.1 = q.1 → p.2 = q.2) ∧
    (∀ p ∈ correspondence_map ctx arms lindex rindex,
      ∀ q ∈ correspondence_map ctx arms lindex rindex,
        p.2 = q.2 → p.1 = q.1) := by
  obtain ⟨hname, hnodup⟩ := eq_expr_inv ctx
    (arms.getD lindex default_arm).pat (arms.getD rindex default_arm).pat
    (arms.getD lindex default_arm).body (arms.getD rindex default_arm).body []
    (by simp) (by simp)
  constructor
  · intro p hp q hq hfst
    have := List.inj_on_of_nodup_map hnodup hp hq hfst
    rw [this]
  · intro p hp q hq hsnd
    simp only [check_eq, Bool.and_eq_true, Bool.not_eq_true'] at hacc
    obtain ⟨⟨⟨⟨⟨_, _⟩, _⟩, _⟩, hbl⟩, _⟩ := hacc
    simp only [bindings_eq, Bool.and_eq_true, List.isEmpty_iff] at hbl
    have hsub := bindings_eq_go_subset _ _ hbl.1 hbl.2
    have hkey : ∀ x ∈ correspondence_map ctx arms lindex rindex,
        x.1 ∈ bindings_or_first (arms.getD lindex default_arm).pat := by
      intro x hx
      exact hsub x.1 (List.mem_dedup.mpr (List.mem_map_of_mem Prod.fst hx))
    have hnp := hname p hp
    have hnq := hname q hq
    exact pairwise_name_inj hnames p.1 (hkey p hp) q.1 (hkey q hq)
      (by rw [hnp, hnq, hsnd])

/-- Witness for claim C9's theorem at a concrete reported pair. -/
theorem guard_exclusion_witness :
    (([(⟨.Lit (.lit (.Int 1)), false, .lit 0⟩ : Arm),
       ⟨.Lit (.lit (.Int 1)), false, .lit 0⟩].getD 0 default_arm).guard = false) ∧
    (([(⟨.Lit (.lit (.Int 1)), false, .lit 0⟩ : Arm),
       ⟨.Lit (.lit (.Int 1)), false, .lit 0⟩].getD 1 default_arm).guard = false) := by
  have hr2 : List.range 2 = [0, 1] := rfl
  have hr1 : List.range 1 = [0] := rfl
  have hr0 : List.range 0 = [] := rfl
  exact guard_exclusion ⟨fun _ => 0, fun _ => 0⟩
    [⟨.Lit (.lit (.Int 1)), false, .lit 0⟩, ⟨.Lit (.lit (.Int 1)), false, .lit 0⟩]
    0 1
    ⟨by omega, by simp, by
      simp [check_eq, resolved_pats, from_pat, forwards_blocking_idxs,
        forward_block, backwards_blocking_idxs, backward_block, can_also_match,
        eq_expr, bindings_eq, bindings_eq_go, bindings_or_first, default_arm,
        hr2, hr1, hr0]⟩

/-- Witness for claim C3's theorem at a concrete accepted pair
(`x => x` versus `x => x` with fresh binding ids 1 and 2, both named 7). -/
theorem binding_correspondence_partial_injection_witness :
    (∀ p ∈ correspondence_map ⟨fun _ => 7, fun _ => 0⟩
        [⟨.BindingNone 1, false, .localRef 1⟩, ⟨.BindingNone 2, false, .localRef 2⟩] 0 1,
      ∀ q ∈ correspondence_map ⟨fun _ => 7, fun _ => 0⟩
        [⟨.BindingNone 1, false, .localRef 1⟩, ⟨.BindingNone 2, false, .localRef 2⟩] 0 1,
        p.1 = q.1 → p.2 = q.2) ∧
    (∀ p ∈ correspondence_map ⟨fun _ => 7, fun _ => 0⟩
        [⟨.BindingNone 1, false, .localRef 1⟩, ⟨.BindingNone 2, false, .localRef 2⟩] 0 1,
      ∀ q ∈ correspondence_map ⟨fun _ => 7, fun _ => 0⟩
        [⟨.BindingNone 1, false, .localRef 1⟩, ⟨.BindingNone 2, false, .localRef 2⟩] 0 1,
        p.2 = q.2 → p.1 = q.1) := by
  have hr2 : List.range 2 = [0, 1] := rfl
  have hr1 : List.range 1 = [0] := rfl
  have hr0 : List.range 0 = [] := rfl
  exact binding_correspondence_partial_injection ⟨fun _ => 7, fun _ => 0⟩
    [⟨.BindingNone 1, false, .localRef 1⟩, ⟨.BindingNone 2, false, .localRef 2⟩]
    0 1
    (by simp [bindings_or_first, default_arm])
    (by
      simp [check_eq, resolved_pats, from_pat, forwards_blocking_idxs,
        forward_block, backwards_blocking_idxs, backward_block, can_also_match,
        eq_expr, eq_fallback, List.lookup, pat_contains_local, bindings_eq,
        bindings_eq_go, bindings_or_first, default_arm, hr2, hr1, hr0])

/-- Claim C10: the closure-validity check visits only the bindings of the
first alternative of each or-pattern (`each_binding_or_first`), so
bindings introduced only in non-first alternatives are exempt; a pair can
be accepted although such a binding was never checked for correspondence.
Concretely, for the arms `(x, 0) | (0, x) => x` and `(y, 0) | (0, y) => y`
(left bindings 1 and 2, right bindings 3 and 4), the pair is accepted,
binding 2 occurs in the left pattern, yet 2 is not a key of the built
correspondence map. -/
theorem or_pattern_first_alternative_bindings_exempt :
    (∀ (p : Pat) (ps : List Pat),
      bindings_or_first (.Or (p :: ps)) = bindings_or_first p) ∧
    check_eq ⟨fun _ => 0, fun _ => 0⟩
      [⟨.Or [.Tuple [.BindingNone 1, .Lit (.lit (.Int 0))] none,
             .Tuple [.Lit (.lit (.Int 0)), .BindingNone 2] none], false, .localRef 1⟩,
       ⟨.Or [.Tuple [.BindingNone 3, .Lit (.lit (.Int 0))] none,
             .Tuple [.Lit (.lit (.Int 0)), .BindingNone 4] none], false, .localRef 3⟩]
      0 1 = true ∧
    pat_contains_local
      (.Or [.Tuple [.BindingNone 1, .Lit (.lit (.Int 0))] none,
            .Tuple [.Lit (.lit (.Int 0)), .BindingNone 2] none]) 2 = true ∧
    ((correspondence_map ⟨fun _ => 0, fun _ => 0⟩
      [⟨.Or [.Tuple [.BindingNone 1, .Lit (.lit (.Int 0))] none,
             .Tuple [.Lit (.lit (.Int 0)), .BindingNone 2] none], false, .localRef 1⟩,
       ⟨.Or [.Tuple [.BindingNone 3, .Lit (.lit (.Int 0))] none,
             .Tuple [.Lit (.lit (.Int 0)), .BindingNone 4] none], false, .localRef 3⟩]
      0 1).map Prod.fst).contains 2 = false := by
  have hr2 : List.range 2 = [0, 1] := rfl
  have hr1 : List.range 1 = [0] := rfl
  have hr0 : List.range 0 = [] := rfl
  refine ⟨fun p ps => by simp [bindings_or_first], ?_, ?_, ?_⟩ <;>
    simp [check_eq, correspondence_map, resolved_pats, from_pat,
      forwards_blocking_idxs, forward_block, backwards_blocking_idxs,
      backward_block, can_also_match, eq_expr, eq_fallback, List.lookup,
      pat_contains_local, bindings_eq, bindings_eq_go, bindings_or_first,
      default_arm, hr2, hr1, hr0]
